import Mathlib

/-!
Verification development for the `python-sonarqube-api` repository
(`sonarqube_api/api.py`, `sonarqube_api/cmd/migrate_rules.py`).

The Python code is shallowly embedded: the paginated fetch loops of
`get_metrics` / `get_rules` become an explicit fuelled loop over a server
oracle, the response classifier of `_make_call` becomes a total function on
response data, the dict-based merge of `get_resources_full_data` becomes
association-list passing, and the body-building fragments of `activate_rule`
and the counting loop of `migrate_rules.main` become pure functions.
-/

namespace SonarApi

/-! ### Pagination (`SonarAPIHandler.get_metrics` / `get_rules`, api.py)

Both generators share the same loop:

    page_num = 1; page_size = 1; n = 2
    while page_num * page_size < n:
        res = self._make_call('get', ENDPOINT, **qs).json()
        page_num = res['p']; page_size = res['ps']; n = res['total']
        qs['p'] = page_num + 1
        for item in res[LIST_FIELD]:
            yield item

The server is modelled as a function from the requested page number to
either a page envelope (fields `p`, `ps`, `total` and the item list) or a
raised error (the classified exception of `_make_call`).  The loop is given
fuel; under the theorems' hypotheses the fuel bound is never reached.
`FetchResult` records the whole observable trace of one generator run: how
many requests were issued, every item yielded (in yield order), and the
error that aborted the run, if any. -/

structure PageResp (α : Type) where
  p : Nat
  ps : Nat
  total : Nat
  items : List α
deriving DecidableEq

structure FetchResult (ε α : Type) where
  requests : Nat
  yielded : List α
  failure : Option ε
deriving DecidableEq

def fetchLoop (srv : Nat → Except ε (PageResp α)) :
    Nat → Nat → Nat → Nat → Nat → FetchResult ε α
  | 0, _, _, _, _ => ⟨0, [], none⟩
  | fuel + 1, nextp, page_num, page_size, n =>
    if page_num * page_size < n then
      match srv nextp with
      | .error e => ⟨1, [], some e⟩
      | .ok r =>
        let rest := fetchLoop srv fuel (r.p + 1) r.p r.ps r.total
        ⟨rest.requests + 1, r.items ++ rest.yielded, rest.failure⟩
    else ⟨0, [], none⟩

/-- One generator run: counters start at the sentinel values
`page_num = 1, page_size = 1, n = 2` and the first request carries no `p`
parameter, i.e. asks for page 1. -/
def fetchPaginated (srv : Nat → Except ε (PageResp α)) (fuel : Nat) :
    FetchResult ε α :=
  fetchLoop srv fuel 1 1 1 2

/-- Number of requests the loop makes against a consistent server with
`total = n` and `page_size = s`: `ceil(n/s)`, but at least one. -/
def pagesNeeded (n s : Nat) : Nat :=
  max 1 ((n + s - 1) / s)

/-- The server of a consistent paginated endpoint holding the item list
`l` split in chunks of `s`, reporting `total = l.length` on every page. -/
def chunkSrv (l : List α) (s : Nat) : Nat → Except ε (PageResp α) :=
  fun i => .ok ⟨i, s, l.length, (l.drop ((i - 1) * s)).take s⟩

/-- Concatenation of the item lists of pages `start, start+1, ...`
(`cnt` many). -/
def pageConcat (pageItems : Nat → List α) : Nat → Nat → List α
  | _, 0 => []
  | start, cnt + 1 => pageItems start ++ pageConcat pageItems (start + 1) cnt

/-- A server that answers pages below `m` consistently and fails (e.g. with
a 403 classified as `AuthError`) on the request for page `m`. -/
def failingSrv (pageItems : Nat → List α) (S N m : Nat) (e : ε) :
    Nat → Except ε (PageResp α) :=
  fun i => if i < m then .ok ⟨i, S, N, pageItems i⟩ else .error e

/-! ### Response classification (`SonarAPIHandler._make_call`, api.py)

    if res.status_code < 300: return res
    elif res.status_code == 400:
        msg = ', '.join(e['msg'] for e in res.json()['errors'])
        raise ValidationError(msg)
    elif res.status_code in (401, 403): raise AuthError(res.reason)
    elif res.status_code < 500: raise ClientError(res.reason)
    else: raise ServerError(res.reason)

`errorMsgs` holds the `msg` field of each entry of the body's `errors`
list. -/

structure HttpResponse where
  status_code : Nat
  reason : String
  errorMsgs : List String
deriving DecidableEq

inductive CallResult where
  | success
  | validationError (msg : String)
  | authError (reason : String)
  | clientError (reason : String)
  | serverError (reason : String)
deriving DecidableEq

def classifyResponse (r : HttpResponse) : CallResult :=
  if r.status_code < 300 then .success
  else if r.status_code = 400 then
    .validationError (String.intercalate ", " r.errorMsgs)
  else if r.status_code = 401 ∨ r.status_code = 403 then .authError r.reason
  else if r.status_code < 500 then .clientError r.reason
  else .serverError r.reason

/-! ### Resource records and the merge (`get_resources_full_data`, api.py)

A resource record is a JSON object; the merge only inspects its `key` and
`msr` fields, so the embedding keeps those (measurements as opaque strings)
plus one representative further field (`name`).  The Python dict `prjs` is
embedded as an insertion-ordered association list: inserting a fresh key
appends at the end, overwriting keeps the position — exactly the dict
semantics the code relies on. -/

structure Resource where
  key : String
  name : String
  msr : List String
deriving DecidableEq

def alistGet : List (String × β) → String → Option β
  | [], _ => none
  | (k, v) :: d, k0 => if k = k0 then some v else alistGet d k0

def alistUpsert : List (String × β) → String → β → List (String × β)
  | [], k0, v0 => [(k0, v0)]
  | (k, v) :: d, k0, v0 =>
    if k = k0 then (k0, v0) :: d else (k, v) :: alistUpsert d k0 v0

def alistKeys (d : List (String × β)) : List String :=
  d.map Prod.fst

/-- `prjs = {prj['key']: prj for prj in self.get_resources_metrics(...)}` -/
def buildPrjs (ms : List Resource) : List (String × Resource) :=
  ms.foldl (fun d m => alistUpsert d m.key m) []

/-- One iteration of the debt loop:

    if prj['key'] in prjs: prjs[prj['key']]['msr'].extend(prj['msr'])
    else: prjs[prj['key']] = prj
-/
def debtStep (d : List (String × Resource)) (prj : Resource) :
    List (String × Resource) :=
  match alistGet d prj.key with
  | some old => alistUpsert d prj.key { old with msr := old.msr ++ prj.msr }
  | none => alistUpsert d prj.key prj

def mergeDebt (d : List (String × Resource)) (debts : List Resource) :
    List (String × Resource) :=
  debts.foldl debtStep d

/-- `sorted(prjs.items(), key=operator.itemgetter(0))` sorts the (unique-key)
dict entries by key.  Python's sort is stable; insertion sort is a stable
sort, so on these inputs the two agree. -/
@[reducible]
def keyLe (a b : String × Resource) : Prop :=
  a.1 ≤ b.1

instance : DecidableRel keyLe :=
  fun a b => inferInstanceAs (Decidable (a.1 ≤ b.1))

instance : IsTotal (String × Resource) keyLe :=
  ⟨fun a b => le_total a.1 b.1⟩

instance : IsTrans (String × Resource) keyLe :=
  ⟨fun _ _ _ h1 h2 => le_trans h1 h2⟩

/-- `get_resources_full_data`, with the two upstream generators already
materialised into the lists `ms` (general metrics) and `debts`. -/
def get_resources_full_data (ms debts : List Resource) : List Resource :=
  (List.insertionSort keyLe (mergeDebt (buildPrjs ms) debts)).map Prod.snd

/-! ### Rule activation (`SonarAPIHandler.activate_rule`, api.py)

    data = {'rule_key': key, 'profile_key': profile_key,
            'reset': reset and 'true' or 'false'}
    if not reset:
        if severity: data['severity'] = severity.upper()
        params = ';'.join('{}={}'.format(k, v)
                          for k, v in sorted(params.items()) if v)
        if params: data['params'] = params

The posted body is embedded as the association list `data` in insertion
order.  `severity` is an optional string, with Python truthiness (`None`
and `""` are falsy).  `sorted(params.items())` sorts key/value tuples
lexicographically; keyword-argument keys are unique, so ties between equal
keys cannot arise. -/

@[reducible]
def pairLe (a b : String × String) : Prop :=
  a.1 < b.1 ∨ (a.1 = b.1 ∧ a.2 ≤ b.2)

instance : DecidableRel pairLe :=
  fun a b => inferInstanceAs (Decidable (a.1 < b.1 ∨ (a.1 = b.1 ∧ a.2 ≤ b.2)))

/-- `';'.join('{}={}'.format(k, v) for k, v in sorted(params.items()) if v)` -/
def paramsSerialized (params : List (String × String)) : String :=
  String.intercalate ";"
    (((List.insertionSort pairLe params).filter (fun kv => kv.2 ≠ "")).map
      (fun kv => kv.1 ++ "=" ++ kv.2))

/-- `if severity: data['severity'] = severity.upper()` — the (possibly
empty) dict entry this adds. -/
def severityEntry : Option String → List (String × String)
  | some s => if s ≠ "" then [("severity", s.toUpper)] else []
  | none => []

/-- `if params: data['params'] = params` — the (possibly empty) dict entry
this adds, `params` being the serialized string. -/
def paramsEntry (params : List (String × String)) :
    List (String × String) :=
  if paramsSerialized params ≠ "" then
    [("params", paramsSerialized params)]
  else []

/-- The body `activate_rule` posts to the activation endpoint, as the dict
entries in insertion order. -/
def activate_rule_body (key profile_key : String) (reset : Bool)
    (severity : Option String) (params : List (String × String)) :
    List (String × String) :=
  let data := [("rule_key", key), ("profile_key", profile_key),
               ("reset", if reset then "true" else "false")]
  if reset then data
  else data ++ severityEntry severity ++ paramsEntry params

/-! ### Rule migration (`cmd/migrate_rules.py`, `main`)

The per-rule behaviour of the migration loop.  Each source rule is reduced
to what the loop observes of it: its key, whether it carries a non-empty
`params` list, and what `th.create_rule` does for it (succeeds, raises a
`ValidationError` with some message, or raises any other exception).
`MigResult` records the printed status line's data and the keys of the
rules reported on standard error. -/

def startsWithChars : List Char → List Char → Bool
  | [], _ => true
  | _ :: _, [] => false
  | a :: pat, b :: l => a = b && startsWithChars pat l

def hasSubChars (pat : List Char) : List Char → Bool
  | [] => startsWithChars pat []
  | c :: l => startsWithChars pat (c :: l) || hasSubChars pat l

/-- Python's substring test `pat in s`. -/
def containsSub (s pat : String) : Bool :=
  hasSubChars pat.data s.data

inductive CreateOutcome where
  | created
  | vErr (msg : String)
  | fatal (msg : String)
deriving DecidableEq

structure MigRule where
  key : String
  hasParams : Bool
  outcome : CreateOutcome
deriving DecidableEq

structure MigResult where
  status : String
  created : Nat
  skipped : Nat
  failed : Nat
  reported : List String
deriving DecidableEq

def migrateLoop : List MigRule → Nat → Nat → Nat → List String → MigResult
  | [], c, s, f, rep => ⟨"Complete", c, s, f, rep⟩
  | r :: rest, c, s, f, rep =>
    if r.hasParams then
      match r.outcome with
      | .created => migrateLoop rest (c + 1) s f rep
      | .vErr msg =>
        if containsSub msg "already exists" then
          migrateLoop rest c (s + 1) f rep
        else
          migrateLoop rest c s (f + 1) (rep ++ [r.key])
      | .fatal _ => ⟨"Incomplete", c, s, f, rep⟩
    else migrateLoop rest c s f rep

def migrateRun (rules : List MigRule) : MigResult :=
  migrateLoop rules 0 0 0 []

/-! ### Metrics-argument handling (`get_resources_metrics`, api.py)

    params = {}
    if not metrics: metrics = self.GENERAL_METRICS   # a tuple!
    ...
    if include_trends:
        params['includetrends'] = 'true'
        metrics.extend(['new_{}'.format(m) for m in metrics])

`GENERAL_METRICS` is a class-level tuple; tuples have no `extend`, so with
trends requested and no caller-supplied metrics list the line raises
`AttributeError` before `_make_call` runs.  A Python sequence is embedded
as its element list plus a tuple/list tag; `.ok` carries the final value of
the `metrics` list (the in-place `extend` of a caller-supplied list is
modelled by that returned value), `.error` means an exception was raised
before any request was issued. -/

structure PySeq where
  isTuple : Bool
  elems : List String
deriving DecidableEq

def GENERAL_METRICS : PySeq :=
  ⟨true, ["sqale_index", "sqale_debt_ratio",
          "violations", "blocker_violations", "critical_violations",
          "major_violations", "minor_violations",
          "lines_to_cover", "conditions_to_cover", "uncovered_lines",
          "uncovered_conditions", "coverage"]⟩

inductive PyError where
  | attributeError
deriving DecidableEq

def resolveMetrics (metrics : Option PySeq) (include_trends : Bool) :
    Except PyError (List String) :=
  let m := match metrics with
    | none => GENERAL_METRICS
    | some l => if l.elems = [] then GENERAL_METRICS else l
  if include_trends then
    if m.isTuple then .error .attributeError
    else .ok (m.elems ++ m.elems.map (fun s => "new_" ++ s))
  else .ok m.elems

/-! ## Helper lemmas: pagination -/

theorem fetchLoop_step_ok {srv : Nat → Except ε (PageResp α)}
    {fuel nextp pn ps n : Nat} {r : PageResp α}
    (hcond : pn * ps < n) (hs : srv nextp = .ok r) :
    fetchLoop srv (fuel + 1) nextp pn ps n =
      ⟨(fetchLoop srv fuel (r.p + 1) r.p r.ps r.total).requests + 1,
       r.items ++ (fetchLoop srv fuel (r.p + 1) r.p r.ps r.total).yielded,
       (fetchLoop srv fuel (r.p + 1) r.p r.ps r.total).failure⟩ := by
  rw [fetchLoop, if_pos hcond, hs]

theorem fetchLoop_step_err {srv : Nat → Except ε (PageResp α)}
    {fuel nextp pn ps n : Nat} {e : ε}
    (hcond : pn * ps < n) (hs : srv nextp = .error e) :
    fetchLoop srv (fuel + 1) nextp pn ps n = ⟨1, [], some e⟩ := by
  rw [fetchLoop, if_pos hcond, hs]

theorem fetchLoop_step_stop {srv : Nat → Except ε (PageResp α)}
    {fuel nextp pn ps n : Nat} (hcond : ¬ pn * ps < n) :
    fetchLoop srv (fuel + 1) nextp pn ps n = ⟨0, [], none⟩ := by
  rw [fetchLoop, if_neg hcond]

theorem pagesNeeded_pos (n s : Nat) : 1 ≤ pagesNeeded n s :=
  le_max_left 1 _

theorem pagesNeeded_le {N S j : Nat} (hS : 1 ≤ S) (hj : 1 ≤ j)
    (h : N ≤ j * S) : pagesNeeded N S ≤ j := by
  unfold pagesNeeded
  have hq : (N + S - 1) / S < j + 1 := by
    rw [Nat.div_lt_iff_lt_mul (by omega : 0 < S)]
    have hjS : (j + 1) * S = j * S + S := by ring
    omega
  omega

theorem lt_pagesNeeded {N S j : Nat} (hS : 1 ≤ S) (h : j * S < N) :
    j + 1 ≤ pagesNeeded N S := by
  unfold pagesNeeded
  have hq : j + 1 ≤ (N + S - 1) / S := by
    rw [Nat.le_div_iff_mul_le (by omega : 0 < S)]
    have hjS : (j + 1) * S = j * S + S := by ring
    omega
  omega

theorem pagesNeeded_mul_ge {N S : Nat} (hS : 1 ≤ S) :
    N ≤ pagesNeeded N S * S := by
  unfold pagesNeeded
  have h1 := Nat.div_add_mod (N + S - 1) S
  have h2 : (N + S - 1) % S < S := Nat.mod_lt _ (by omega)
  have h3 : max 1 ((N + S - 1) / S) * S = S * max 1 ((N + S - 1) / S) :=
    Nat.mul_comm _ _
  rcases Nat.le_total ((N + S - 1) / S) 1 with h | h
  · interval_cases h0 : (N + S - 1) / S <;> simp_all <;> omega
  · rw [max_eq_right (by omega)]
    have h4 : (N + S - 1) / S * S = S * ((N + S - 1) / S) := Nat.mul_comm _ _
    omega

theorem fetchLoop_chunkSrv {α ε : Type} (l : List α) (S : Nat) (hS : 1 ≤ S) :
    ∀ fuel j, 1 ≤ j → pagesNeeded l.length S ≤ j + fuel →
      fetchLoop (chunkSrv (ε := ε) l S) fuel (j + 1) j S l.length
        = ⟨pagesNeeded l.length S - j, l.drop (j * S), none⟩ := by
  intro fuel
  induction fuel with
  | zero =>
    intro j hj hle
    have hk := pagesNeeded_mul_ge (N := l.length) hS
    have hmul : pagesNeeded l.length S * S ≤ j * S :=
      Nat.mul_le_mul_right S (by omega)
    rw [fetchLoop]
    rw [List.drop_eq_nil_of_le (show l.length ≤ j * S by omega)]
    have hz : pagesNeeded l.length S - j = 0 := by omega
    rw [hz]
  | succ fuel ih =>
    intro j hj hle
    by_cases hcond : j * S < l.length
    · have hjk := lt_pagesNeeded hS hcond
      have hsrv : chunkSrv (ε := ε) l S (j + 1)
          = .ok ⟨j + 1, S, l.length, (l.drop (j * S)).take S⟩ := by
        simp [chunkSrv]
      rw [fetchLoop_step_ok hcond hsrv]
      have hrest := ih (j + 1) (by omega) (by omega)
      simp only at hrest
      rw [hrest]
      have h1 : pagesNeeded l.length S - (j + 1) + 1
          = pagesNeeded l.length S - j := by omega
      have h2 : (l.drop (j * S)).take S ++ l.drop ((j + 1) * S)
          = l.drop (j * S) := by
        rw [show (j + 1) * S = j * S + S by ring, ← List.drop_drop,
          List.take_append_drop]
      rw [h1, h2]
    · have hjk := pagesNeeded_le (N := l.length) hS hj (by omega)
      rw [fetchLoop_step_stop hcond]
      rw [List.drop_eq_nil_of_le (show l.length ≤ j * S by omega)]
      have hz : pagesNeeded l.length S - j = 0 := by omega
      rw [hz]

/-- **C1.** For a consistent paginated endpoint whose responses all report
page size `S` and total `l.length`, page `i` carrying the `i`-th chunk of
the item list `l`, the generator loop of `get_metrics` / `get_rules` issues
exactly `ceil(l.length / S)` requests (at least one, so exactly one with
`l = []`, yielding no items) and yields exactly the items of `l` in page
order with no error. -/
theorem paginated_fetch_uniform {α ε : Type} (l : List α) (S fuel : Nat)
    (hS : 1 ≤ S) (hfuel : pagesNeeded l.length S ≤ fuel) :
    fetchPaginated (chunkSrv (ε := ε) l S) fuel
      = ⟨pagesNeeded l.length S, l, none⟩ := by
  obtain ⟨f, rfl⟩ : ∃ f, fuel = f + 1 :=
    ⟨fuel - 1, by have := pagesNeeded_pos l.length S; omega⟩
  unfold fetchPaginated
  have hsrv : chunkSrv (ε := ε) l S 1
      = .ok ⟨1, S, l.length, (l.drop (0 * S)).take S⟩ := by
    simp [chunkSrv]
  rw [fetchLoop_step_ok (by norm_num) hsrv]
  have hrest := fetchLoop_chunkSrv (ε := ε) l S hS f 1 le_rfl
    (by have := pagesNeeded_pos l.length S; omega)
  simp only at hrest
  rw [hrest]
  have h1 : pagesNeeded l.length S - 1 + 1 = pagesNeeded l.length S := by
    have := pagesNeeded_pos l.length S; omega
  have h2 : (l.drop (0 * S)).take S ++ l.drop (1 * S) = l := by
    rw [show (1 : Nat) * S = 0 * S + S by ring, ← List.drop_drop,
      List.take_append_drop]
    simp
  rw [h1, h2]

/-- Witness for C1: three items, page size two, two pages. -/
theorem paginated_fetch_uniform_witness :
    fetchPaginated (chunkSrv (ε := Unit) ["a", "b", "c"] 2) 2
      = ⟨2, ["a", "b", "c"], none⟩ :=
  (paginated_fetch_uniform ["a", "b", "c"] 2 2 (by decide) (by decide)).trans
    (by decide)

theorem fetchLoop_failingSrv {α ε : Type} (pageItems : Nat → List α)
    (S N m : Nat) (e : ε)
    (hcond : ∀ j, 1 ≤ j → j < m → j * S < N) :
    ∀ fuel j, 1 ≤ j → j < m → m ≤ j + fuel →
      fetchLoop (failingSrv pageItems S N m e) fuel (j + 1) j S N
        = ⟨m - j, pageConcat pageItems (j + 1) (m - 1 - j), some e⟩ := by
  intro fuel
  induction fuel with
  | zero => intro j hj hjm hle; omega
  | succ fuel ih =>
    intro j hj hjm hle
    have hc : j * S < N := hcond j hj hjm
    by_cases hnext : j + 1 < m
    · have hsrv : failingSrv pageItems S N m e (j + 1)
          = .ok ⟨j + 1, S, N, pageItems (j + 1)⟩ := by
        simp [failingSrv, hnext]
      rw [fetchLoop_step_ok hc hsrv]
      have hrest := ih (j + 1) (by omega) hnext (by omega)
      simp only at hrest
      rw [hrest]
      have h1 : m - (j + 1) + 1 = m - j := by omega
      have h2 : m - 1 - j = (m - 1 - (j + 1)) + 1 := by omega
      rw [h1, h2, pageConcat]
    · have hm : j + 1 = m := by omega
      have hsrv : failingSrv pageItems S N m e (j + 1) = .error e := by
        simp [failingSrv, hm]
      rw [fetchLoop_step_err hc hsrv]
      have h1 : m - j = 1 := by omega
      have h2 : m - 1 - j = 0 := by omega
      rw [h1, h2, pageConcat]

/-- **C9.** If the server answers pages `1 .. m-1` consistently (page size
`S`, total `N`, and page `m` is still due, i.e. `(m-1)*S < N` unless
`m = 1`) but the request for page `m` fails with the classified error `e`
(e.g. an `AuthError` from a 403), the generator run makes exactly `m`
requests — none after the failing one — has already yielded exactly the
items of pages `1 .. m-1` in order, and surfaces `e` at that point; the
yielded items are not retracted. -/
theorem paginated_fetch_aborts {α ε : Type} (pageItems : Nat → List α)
    (S N m fuel : Nat) (e : ε) (hS : 1 ≤ S) (hm : 1 ≤ m) (hfuel : m ≤ fuel)
    (hlast : m = 1 ∨ (m - 1) * S < N) :
    fetchPaginated (failingSrv pageItems S N m e) fuel
      = ⟨m, pageConcat pageItems 1 (m - 1), some e⟩ := by
  have hcond : ∀ j, 1 ≤ j → j < m → j * S < N := by
    intro j hj hjm
    rcases hlast with h1 | h1
    · omega
    · calc j * S ≤ (m - 1) * S := Nat.mul_le_mul_right S (by omega)
        _ < N := h1
  obtain ⟨f, rfl⟩ : ∃ f, fuel = f + 1 := ⟨fuel - 1, by omega⟩
  unfold fetchPaginated
  by_cases h1 : 1 < m
  · have hsrv : failingSrv pageItems S N m e 1
        = .ok ⟨1, S, N, pageItems 1⟩ := by
      simp [failingSrv, h1]
    rw [fetchLoop_step_ok (by norm_num) hsrv]
    have hrest := fetchLoop_failingSrv pageItems S N m e hcond f 1 le_rfl h1
      (by omega)
    simp only at hrest
    rw [hrest]
    have h3 : m - 1 = (m - 1 - 1) + 1 := by omega
    dsimp only
    simp only [FetchResult.mk.injEq]
    refine ⟨by omega, ?_, trivial⟩
    conv_rhs => rw [h3]
    rw [pageConcat]
  · have hm1 : m = 1 := by omega
    have hsrv : failingSrv pageItems S N m e 1 = .error e := by
      simp [failingSrv, hm1]
    rw [fetchLoop_step_err (by norm_num) hsrv]
    rw [hm1]
    rw [show (1 : Nat) - 1 = 0 from rfl, pageConcat]

/-- Witness for C9: page size 1, total 5, failure on the second request,
after the single item of page 1 was yielded. -/
theorem paginated_fetch_aborts_witness :
    fetchPaginated (failingSrv (fun i => [toString i]) 1 5 2 "denied") 9
      = ⟨2, ["1"], some "denied"⟩ :=
  (paginated_fetch_aborts (fun i => [toString i]) 1 5 2 9 "denied"
    (by decide) (by decide) (by decide) (by decide)).trans (by decide)

/-! ## C2: response classification -/

/-- **C2, counterexample.** The claim states `ClientError` arises exactly
for `400 < status < 500` (excluding 401/403) *and for no other status*.
But the `elif` chain of `_make_call` also sends every non-redirected 3xx
response (e.g. a 304) to `ClientError`: status 304 is classified as
`ClientError` although `400 < 304` is false. -/
theorem classifyResponse_claim_counterexample :
    classifyResponse ⟨304, "Not Modified", []⟩
        = CallResult.clientError "Not Modified"
      ∧ ¬ (400 < 304 ∧ 304 < 500) := by
  exact ⟨rfl, by omega⟩

/-- **C2, amended.** Exact characterization of `_make_call`'s response
classification: success iff `status < 300`; `ValidationError` with the
comma-joined `msg` fields iff `status = 400`; `AuthError` with the reason
phrase iff `status ∈ {401, 403}`; `ClientError` with the reason phrase iff
`300 ≤ status < 500` and `status ∉ {400, 401, 403}` (this includes 3xx
statuses, which the claim excluded); `ServerError` iff `status ≥ 500`. -/
theorem classifyResponse_cases (r : HttpResponse) :
    (classifyResponse r = CallResult.success ↔ r.status_code < 300)
    ∧ (classifyResponse r
          = CallResult.validationError (String.intercalate ", " r.errorMsgs)
        ↔ r.status_code = 400)
    ∧ (classifyResponse r = CallResult.authError r.reason
        ↔ (r.status_code = 401 ∨ r.status_code = 403))
    ∧ (classifyResponse r = CallResult.clientError r.reason
        ↔ (300 ≤ r.status_code ∧ r.status_code < 500
            ∧ r.status_code ≠ 400 ∧ r.status_code ≠ 401
            ∧ r.status_code ≠ 403))
    ∧ (classifyResponse r = CallResult.serverError r.reason
        ↔ 500 ≤ r.status_code) := by
  unfold classifyResponse
  split_ifs with h1 h2 h3 h4 <;>
    refine ⟨?_, ?_, ?_, ?_, ?_⟩ <;> simp_all <;> omega

/-! ## Helper lemmas: association lists and the merge -/

theorem alistGet_upsert_self (d : List (String × β)) (k : String) (v : β) :
    alistGet (alistUpsert d k v) k = some v := by
  induction d with
  | nil => simp [alistUpsert, alistGet]
  | cons p d ih =>
    by_cases h : p.1 = k
    · simp [alistUpsert, alistGet, h]
    · simpa [alistUpsert, alistGet, h] using ih

theorem alistGet_upsert_ne (d : List (String × β)) {k k0 : String} (v : β)
    (h : k ≠ k0) : alistGet (alistUpsert d k v) k0 = alistGet d k0 := by
  induction d with
  | nil => simp [alistUpsert, alistGet, h]
  | cons p d ih =>
    by_cases hp : p.1 = k
    · simp [alistUpsert, alistGet, hp, h]
    · simp only [alistUpsert, hp, if_false]
      by_cases hp0 : p.1 = k0 <;> simp [alistGet, hp0, ih]

theorem alistKeys_upsert (d : List (String × β)) (k : String) (v : β) :
    alistKeys (alistUpsert d k v)
      = if k ∈ alistKeys d then alistKeys d else alistKeys d ++ [k] := by
  induction d with
  | nil => simp [alistUpsert, alistKeys]
  | cons p d ih =>
    by_cases hp : p.1 = k
    · simp [alistUpsert, alistKeys, hp]
    · have hne : ¬ k = p.1 := fun h => hp h.symm
      by_cases hmem : k ∈ alistKeys d <;>
        simp_all [alistUpsert, alistKeys, hp]

theorem alistKeys_upsert_nodup (d : List (String × β)) (k : String) (v : β)
    (h : (alistKeys d).Nodup) : (alistKeys (alistUpsert d k v)).Nodup := by
  rw [alistKeys_upsert]
  by_cases hmem : k ∈ alistKeys d
  · simpa [hmem] using h
  · simpa [hmem, List.nodup_append] using h

theorem alistGet_eq_none_iff (d : List (String × β)) (k : String) :
    alistGet d k = none ↔ k ∉ alistKeys d := by
  induction d with
  | nil => simp [alistGet, alistKeys]
  | cons p d ih =>
    by_cases hp : p.1 = k <;> simp_all [alistGet, alistKeys, hp, eq_comm]

theorem mem_of_alistGet_eq_some {k : String} {v : β} :
    ∀ {d : List (String × β)}, alistGet d k = some v → (k, v) ∈ d := by
  intro d
  induction d with
  | nil => intro h; simp [alistGet] at h
  | cons p d ih =>
    intro h
    by_cases hp : p.1 = k
    · simp only [alistGet, hp, if_true, eq_self_iff_true, Option.some_inj] at h
      have hkp : (k, v) = p := by rw [← hp, ← h]
      rw [hkp]
      exact List.mem_cons_self p d
    · simp only [alistGet, hp, if_false] at h
      exact List.mem_cons_of_mem _ (ih h)

theorem mem_upsert_elim {k : String} {v : β} {p : String × β} :
    ∀ {d : List (String × β)}, p ∈ alistUpsert d k v → p ∈ d ∨ p = (k, v) := by
  intro d
  induction d with
  | nil => intro h; simpa [alistUpsert] using h
  | cons q d ih =>
    intro h
    by_cases hq : q.1 = k
    · simp only [alistUpsert, hq, if_true, eq_self_iff_true] at h
      rcases List.mem_cons.mp h with h1 | h1
      · right; exact h1
      · left; exact List.mem_cons_of_mem _ h1
    · simp only [alistUpsert, hq, if_false] at h
      rcases List.mem_cons.mp h with h1 | h1
      · left; exact h1 ▸ List.mem_cons_self q d
      · rcases ih h1 with h2 | h2
        · left; exact List.mem_cons_of_mem _ h2
        · right; exact h2

theorem alistUpsert_fresh (d : List (String × β)) (k : String) (v : β)
    (h : k ∉ alistKeys d) : alistUpsert d k v = d ++ [(k, v)] := by
  induction d with
  | nil => simp [alistUpsert]
  | cons p d ih =>
    have hp : ¬ p.1 = k := by
      intro hc
      exact h (by simp [alistKeys, hc])
    simp only [alistUpsert, hp, if_false, List.cons_append]
    rw [ih (fun hc => h (by simp [alistKeys] at hc ⊢; right; exact hc))]

theorem alistGet_eq_some_of_mem {k : String} {v : β} :
    ∀ {d : List (String × β)}, (alistKeys d).Nodup → (k, v) ∈ d →
      alistGet d k = some v := by
  intro d
  induction d with
  | nil => intro _ h; simp at h
  | cons p d ih =>
    intro hnd h
    rcases List.mem_cons.mp h with h1 | h1
    · rw [← h1]
      simp [alistGet]
    · have hp : ¬ p.1 = k := by
        intro hc
        have : k ∈ alistKeys d :=
          List.mem_map.mpr ⟨(k, v), h1, rfl⟩
        rw [alistKeys, List.map_cons] at hnd
        exact (List.nodup_cons.mp hnd).1 (hc ▸ this)
      simp only [alistGet, hp, if_false]
      exact ih (List.nodup_cons.mp (by rwa [alistKeys, List.map_cons] at hnd)).2 h1

theorem find?_key_eq_none {ms : List Resource} {k : String}
    (h : k ∉ ms.map Resource.key) :
    ms.find? (fun x => x.key == k) = none := by
  rw [List.find?_eq_none]
  intro x hx hc
  exact h (List.mem_map.mpr ⟨x, hx, by simpa using hc⟩)

theorem find?_key_of_mem {ms : List Resource} {m : Resource}
    (hnd : (ms.map Resource.key).Nodup) (hm : m ∈ ms) :
    ms.find? (fun x => x.key == m.key) = some m := by
  induction ms with
  | nil => simp at hm
  | cons x ms ih =>
    rw [List.map_cons, List.nodup_cons] at hnd
    rcases List.mem_cons.mp hm with h1 | h1
    · rw [← h1]
      simp [List.find?]
    · have hx : ¬ (x.key == m.key) = true := by
        intro hc
        exact hnd.1 (by
          simp only [beq_iff_eq] at hc
          rw [hc]
          exact List.mem_map.mpr ⟨m, h1, rfl⟩)
      simp only [List.find?, hx]
      exact ih hnd.2 h1

theorem foldl_upsert_get (ms : List Resource) :
    ∀ (d : List (String × Resource)) (k : String),
      (ms.map Resource.key).Nodup →
      alistGet (ms.foldl (fun d m => alistUpsert d m.key m) d) k
        = match ms.find? (fun m => m.key == k) with
          | some m => some m
          | none => alistGet d k := by
  induction ms with
  | nil => intro d k _; simp
  | cons m ms ih =>
    intro d k hnd
    rw [List.map_cons, List.nodup_cons] at hnd
    rw [List.foldl_cons]
    by_cases hk : m.key = k
    · have hrest : ms.find? (fun x => x.key == k) = none :=
        find?_key_eq_none (hk ▸ hnd.1)
      rw [ih (alistUpsert d m.key m) k hnd.2, hrest]
      have hfind : (m :: ms).find? (fun x => x.key == k) = some m := by
        simp [List.find?, hk]
      rw [hfind]
      exact hk ▸ alistGet_upsert_self d m.key m
    · have hfind : (m :: ms).find? (fun x => x.key == k)
          = ms.find? (fun x => x.key == k) := by
        have hbeq : (m.key == k) = false := by simpa using hk
        simp [List.find?, hbeq]
      rw [ih (alistUpsert d m.key m) k hnd.2, hfind,
        alistGet_upsert_ne d m hk]

theorem buildPrjs_get (ms : List Resource) (k : String)
    (hnd : (ms.map Resource.key).Nodup) :
    alistGet (buildPrjs ms) k
      = match ms.find? (fun m => m.key == k) with
        | some m => some m
        | none => none := by
  unfold buildPrjs
  rw [foldl_upsert_get ms [] k hnd]
  rfl

theorem mergeDebt_get (debts : List Resource) :
    ∀ (d : List (String × Resource)) (k : String),
      (debts.map Resource.key).Nodup →
      alistGet (mergeDebt d debts) k
        = match alistGet d k, debts.find? (fun x => x.key == k) with
          | some v, some dk => some { v with msr := v.msr ++ dk.msr }
          | some v, none => some v
          | none, some dk => some dk
          | none, none => none := by
  induction debts with
  | nil =>
    intro d k _
    rcases h : alistGet d k with _ | v <;> simp [mergeDebt, h]
  | cons prj debts ih =>
    intro d k hnd
    rw [List.map_cons, List.nodup_cons] at hnd
    have hstep : mergeDebt d (prj :: debts) = mergeDebt (debtStep d prj) debts :=
      rfl
    rw [hstep, ih (debtStep d prj) k hnd.2]
    by_cases hk : prj.key = k
    · have hrest : debts.find? (fun x => x.key == k) = none :=
        find?_key_eq_none (hk ▸ hnd.1)
      have hfind : (prj :: debts).find? (fun x => x.key == k) = some prj := by
        simp [List.find?, hk]
      rw [hrest, hfind]
      rcases h : alistGet d k with _ | v
      · have hd : alistGet d prj.key = none := hk ▸ h
        simp only [debtStep, hd]
        rw [show alistGet (alistUpsert d prj.key prj) k = some prj from
          hk ▸ alistGet_upsert_self d prj.key prj]
      · have hd : alistGet d prj.key = some v := hk ▸ h
        simp only [debtStep, hd]
        rw [show alistGet
            (alistUpsert d prj.key { v with msr := v.msr ++ prj.msr }) k
          = some { v with msr := v.msr ++ prj.msr } from
          hk ▸ alistGet_upsert_self d prj.key _]
    · have hfind : (prj :: debts).find? (fun x => x.key == k)
          = debts.find? (fun x => x.key == k) := by
        have hbeq : (prj.key == k) = false := by simpa using hk
        simp [List.find?, hbeq]
      have hget : alistGet (debtStep d prj) k = alistGet d k := by
        rcases h : alistGet d prj.key with _ | v <;>
          simp only [debtStep, h] <;>
          exact alistGet_upsert_ne d _ hk
      rw [hfind, hget]

theorem foldl_upsert_keys_nodup (ms : List Resource) :
    ∀ d : List (String × Resource), (alistKeys d).Nodup →
      (alistKeys (ms.foldl (fun d m => alistUpsert d m.key m) d)).Nodup := by
  induction ms with
  | nil => intro d h; exact h
  | cons m ms ih =>
    intro d h
    rw [List.foldl_cons]
    exact ih _ (alistKeys_upsert_nodup d m.key m h)

theorem mergeDebt_keys_nodup (debts : List Resource) :
    ∀ d : List (String × Resource), (alistKeys d).Nodup →
      (alistKeys (mergeDebt d debts)).Nodup := by
  induction debts with
  | nil => intro d h; exact h
  | cons prj debts ih =>
    intro d h
    have hstep : (alistKeys (debtStep d prj)).Nodup := by
      rcases hg : alistGet d prj.key with _ | v <;>
        simp only [debtStep, hg] <;>
        exact alistKeys_upsert_nodup d prj.key _ h
    exact ih _ hstep

theorem foldl_upsert_wf (ms : List Resource) :
    ∀ d : List (String × Resource), (∀ p ∈ d, p.1 = p.2.key) →
      ∀ p ∈ ms.foldl (fun d m => alistUpsert d m.key m) d, p.1 = p.2.key := by
  induction ms with
  | nil => intro d h; exact h
  | cons m ms ih =>
    intro d h
    rw [List.foldl_cons]
    refine ih _ (fun p hp => ?_)
    rcases mem_upsert_elim hp with h1 | h1
    · exact h p h1
    · rw [h1]

theorem mergeDebt_wf (debts : List Resource) :
    ∀ d : List (String × Resource), (∀ p ∈ d, p.1 = p.2.key) →
      ∀ p ∈ mergeDebt d debts, p.1 = p.2.key := by
  induction debts with
  | nil => intro d h; exact h
  | cons prj debts ih =>
    intro d h
    refine ih _ (fun p hp => ?_)
    rcases hg : alistGet d prj.key with _ | v
    · simp only [debtStep, hg] at hp
      rcases mem_upsert_elim hp with h1 | h1
      · exact h p h1
      · rw [h1]
    · simp only [debtStep, hg] at hp
      rcases mem_upsert_elim hp with h1 | h1
      · exact h p h1
      · have hv : prj.key = v.key := h (prj.key, v) (mem_of_alistGet_eq_some hg)
        rw [h1]
        exact hv

theorem mem_full_data_iff (ms debts : List Resource) (r : Resource) :
    r ∈ get_resources_full_data ms debts
      ↔ ∃ k, (k, r) ∈ mergeDebt (buildPrjs ms) debts := by
  unfold get_resources_full_data
  rw [List.mem_map]
  constructor
  · rintro ⟨p, hp, rfl⟩
    exact ⟨p.1, (List.perm_insertionSort keyLe _).mem_iff.mp hp⟩
  · rintro ⟨k, hk⟩
    exact ⟨(k, r), (List.perm_insertionSort keyLe _).mem_iff.mpr hk, rfl⟩

theorem full_data_key_lt_sorted (ms debts : List Resource) :
    (get_resources_full_data ms debts).Pairwise
      (fun a b => a.key < b.key) := by
  have hwf : ∀ p ∈ mergeDebt (buildPrjs ms) debts, p.1 = p.2.key :=
    mergeDebt_wf debts _ (foldl_upsert_wf ms [] (fun p hp => (List.not_mem_nil p hp).elim))
  have hnd : (alistKeys (mergeDebt (buildPrjs ms) debts)).Nodup :=
    mergeDebt_keys_nodup debts _ (foldl_upsert_keys_nodup ms [] (by simp [alistKeys]))
  have hperm := List.perm_insertionSort keyLe (mergeDebt (buildPrjs ms) debts)
  have hsorted : (List.insertionSort keyLe
      (mergeDebt (buildPrjs ms) debts)).Pairwise keyLe :=
    List.sorted_insertionSort keyLe _
  have hndsorted : (List.map Prod.fst (List.insertionSort keyLe
      (mergeDebt (buildPrjs ms) debts))).Nodup :=
    (hperm.map Prod.fst).nodup_iff.mpr hnd
  have hne : (List.insertionSort keyLe
      (mergeDebt (buildPrjs ms) debts)).Pairwise
      (fun p q => p.1 ≠ q.1) :=
    List.pairwise_map.mp hndsorted
  unfold get_resources_full_data
  rw [List.pairwise_map]
  refine (hsorted.and hne).imp_of_mem ?_
  intro p q hp hq hpq
  have hpwf : p.1 = p.2.key := hwf p (hperm.mem_iff.mp hp)
  have hqwf : q.1 = q.2.key := hwf q (hperm.mem_iff.mp hq)
  rw [← hpwf, ← hqwf]
  exact lt_of_le_of_ne hpq.1 hpq.2

/-- Records found in the merged dict are emitted, with their key. -/
theorem full_data_of_get {ms debts : List Resource} {k : String}
    {r : Resource}
    (h : alistGet (mergeDebt (buildPrjs ms) debts) k = some r) :
    r ∈ get_resources_full_data ms debts ∧ r.key = k := by
  have hwf : ∀ p ∈ mergeDebt (buildPrjs ms) debts, p.1 = p.2.key :=
    mergeDebt_wf debts _ (foldl_upsert_wf ms [] (fun p hp => (List.not_mem_nil p hp).elim))
  have hmem := mem_of_alistGet_eq_some h
  exact ⟨(mem_full_data_iff ms debts r).mpr ⟨k, hmem⟩,
    (hwf (k, r) hmem).symm⟩

/-- **C3.** With unique keys per collection (guaranteed for dict-derived
inputs): a resource key present in both collections ends up with the
metrics-side measurement list concatenated with the debt-side one (no
de-duplication); a debt record whose key has no metrics record is inserted
as-is; and no resource of either side is dropped from the output. -/
theorem merge_concat_and_total (ms debts : List Resource)
    (hm : (ms.map Resource.key).Nodup)
    (hd : (debts.map Resource.key).Nodup) :
    (∀ m ∈ ms, ∀ dr ∈ debts, m.key = dr.key →
        ∃ r ∈ get_resources_full_data ms debts,
          r.key = m.key ∧ r.msr = m.msr ++ dr.msr)
    ∧ (∀ dr ∈ debts, dr.key ∉ ms.map Resource.key →
        dr ∈ get_resources_full_data ms debts)
    ∧ (∀ m ∈ ms, ∃ r ∈ get_resources_full_data ms debts, r.key = m.key)
    ∧ (∀ dr ∈ debts, ∃ r ∈ get_resources_full_data ms debts,
        r.key = dr.key) := by
  refine ⟨?_, ?_, ?_, ?_⟩
  · intro m hmm dr hdr hkey
    have hb : alistGet (buildPrjs ms) m.key = some m := by
      rw [buildPrjs_get ms m.key hm, find?_key_of_mem hm hmm]
    have hfd : debts.find? (fun x => x.key == m.key) = some dr := by
      rw [hkey]
      exact find?_key_of_mem hd hdr
    have hD : alistGet (mergeDebt (buildPrjs ms) debts) m.key
        = some { m with msr := m.msr ++ dr.msr } := by
      rw [mergeDebt_get debts (buildPrjs ms) m.key hd, hb, hfd]
    obtain ⟨hmem, hkey2⟩ := full_data_of_get hD
    exact ⟨{ m with msr := m.msr ++ dr.msr }, hmem, hkey2, rfl⟩
  · intro dr hdr hnot
    have hb : alistGet (buildPrjs ms) dr.key = none := by
      rw [buildPrjs_get ms dr.key hm, find?_key_eq_none hnot]
    have hD : alistGet (mergeDebt (buildPrjs ms) debts) dr.key
        = some dr := by
      rw [mergeDebt_get debts (buildPrjs ms) dr.key hd, hb,
        find?_key_of_mem hd hdr]
    exact (full_data_of_get hD).1
  · intro m hmm
    have hb : alistGet (buildPrjs ms) m.key = some m := by
      rw [buildPrjs_get ms m.key hm, find?_key_of_mem hm hmm]
    rcases hfd : debts.find? (fun x => x.key == m.key) with _ | dk
    · have hD : alistGet (mergeDebt (buildPrjs ms) debts) m.key = some m := by
        rw [mergeDebt_get debts (buildPrjs ms) m.key hd, hb, hfd]
      obtain ⟨hmem, hkey2⟩ := full_data_of_get hD
      exact ⟨m, hmem, hkey2⟩
    · have hD : alistGet (mergeDebt (buildPrjs ms) debts) m.key
          = some { m with msr := m.msr ++ dk.msr } := by
        rw [mergeDebt_get debts (buildPrjs ms) m.key hd, hb, hfd]
      obtain ⟨hmem, hkey2⟩ := full_data_of_get hD
      exact ⟨{ m with msr := m.msr ++ dk.msr }, hmem, hkey2⟩
  · intro dr hdr
    have hfd : debts.find? (fun x => x.key == dr.key) = some dr :=
      find?_key_of_mem hd hdr
    rcases hb : alistGet (buildPrjs ms) dr.key with _ | v
    · have hD : alistGet (mergeDebt (buildPrjs ms) debts) dr.key
          = some dr := by
        rw [mergeDebt_get debts (buildPrjs ms) dr.key hd, hb, hfd]
      obtain ⟨hmem, hkey2⟩ := full_data_of_get hD
      exact ⟨dr, hmem, hkey2⟩
    · have hD : alistGet (mergeDebt (buildPrjs ms) debts) dr.key
          = some { v with msr := v.msr ++ dr.msr } := by
        rw [mergeDebt_get debts (buildPrjs ms) dr.key hd, hb, hfd]
      obtain ⟨hmem, hkey2⟩ := full_data_of_get hD
      exact ⟨{ v with msr := v.msr ++ dr.msr }, hmem, hkey2⟩

/-- Witness for C3: the spec's scenario — metrics `[{A, [coverage]}]`,
debt `[{A, [sqale_index]}, {B, [sqale_index]}]`. -/
theorem merge_concat_and_total_witness :
    (∀ m ∈ [Resource.mk "A" "an" ["coverage=70"]],
      ∀ dr ∈ [Resource.mk "A" "an" ["sqale_index=10"],
              Resource.mk "B" "bn" ["sqale_index=5"]], m.key = dr.key →
        ∃ r ∈ get_resources_full_data
            [Resource.mk "A" "an" ["coverage=70"]]
            [Resource.mk "A" "an" ["sqale_index=10"],
             Resource.mk "B" "bn" ["sqale_index=5"]],
          r.key = m.key ∧ r.msr = m.msr ++ dr.msr)
    ∧ (∀ dr ∈ [Resource.mk "A" "an" ["sqale_index=10"],
               Resource.mk "B" "bn" ["sqale_index=5"]],
        dr.key ∉ [Resource.mk "A" "an" ["coverage=70"]].map Resource.key →
        dr ∈ get_resources_full_data
            [Resource.mk "A" "an" ["coverage=70"]]
            [Resource.mk "A" "an" ["sqale_index=10"],
             Resource.mk "B" "bn" ["sqale_index=5"]])
    ∧ (∀ m ∈ [Resource.mk "A" "an" ["coverage=70"]],
        ∃ r ∈ get_resources_full_data
            [Resource.mk "A" "an" ["coverage=70"]]
            [Resource.mk "A" "an" ["sqale_index=10"],
             Resource.mk "B" "bn" ["sqale_index=5"]], r.key = m.key)
    ∧ (∀ dr ∈ [Resource.mk "A" "an" ["sqale_index=10"],
               Resource.mk "B" "bn" ["sqale_index=5"]],
        ∃ r ∈ get_resources_full_data
            [Resource.mk "A" "an" ["coverage=70"]]
            [Resource.mk "A" "an" ["sqale_index=10"],
             Resource.mk "B" "bn" ["sqale_index=5"]], r.key = dr.key) :=
  merge_concat_and_total
    [Resource.mk "A" "an" ["coverage=70"]]
    [Resource.mk "A" "an" ["sqale_index=10"],
     Resource.mk "B" "bn" ["sqale_index=5"]]
    (by decide) (by decide)

/-- **C4.** The merge's output is sorted in strictly ascending
(lexicographic) order of the resource `key` field, for all input
orderings with unique keys per collection. -/
theorem merge_output_sorted (ms debts : List Resource)
    (hm : (ms.map Resource.key).Nodup)
    (hd : (debts.map Resource.key).Nodup) :
    (get_resources_full_data ms debts).Pairwise
      (fun a b => a.key < b.key) :=
  full_data_key_lt_sorted ms debts

/-- Witness for C4: inputs given in non-sorted order. -/
theorem merge_output_sorted_witness :
    (get_resources_full_data
        [Resource.mk "B" "bn" ["m1"], Resource.mk "A" "an" ["m2"]]
        [Resource.mk "C" "cn" ["d1"]]).Pairwise
      (fun a b => a.key < b.key) :=
  merge_output_sorted
    [Resource.mk "B" "bn" ["m1"], Resource.mk "A" "an" ["m2"]]
    [Resource.mk "C" "cn" ["d1"]] (by decide) (by decide)

theorem foldl_upsert_fresh (ms : List Resource) :
    ∀ d : List (String × Resource), (ms.map Resource.key).Nodup →
      (∀ m ∈ ms, m.key ∉ alistKeys d) →
      ms.foldl (fun d m => alistUpsert d m.key m) d
        = d ++ ms.map (fun m => (m.key, m)) := by
  induction ms with
  | nil => intro d _ _; simp
  | cons m ms ih =>
    intro d hnd hdisj
    rw [List.map_cons, List.nodup_cons] at hnd
    rw [List.foldl_cons,
      alistUpsert_fresh d m.key m (hdisj m (List.mem_cons_self m ms))]
    rw [ih (d ++ [(m.key, m)]) hnd.2 ?_]
    · simp
    · intro x hx
      have hkeys : alistKeys (d ++ [(m.key, m)])
          = alistKeys d ++ [m.key] := by
        simp [alistKeys]
      rw [hkeys]
      intro hc
      rcases List.mem_append.mp hc with hc1 | hc1
      · exact hdisj x (List.mem_cons_of_mem m hx) hc1
      · have : x.key = m.key := by simpa using hc1
        exact hnd.1 (this ▸ List.mem_map.mpr ⟨x, hx, rfl⟩)

theorem buildPrjs_of_nodup (ms : List Resource)
    (hnd : (ms.map Resource.key).Nodup) :
    buildPrjs ms = ms.map (fun m => (m.key, m)) := by
  unfold buildPrjs
  rw [foldl_upsert_fresh ms [] hnd (by simp [alistKeys])]
  simp

/-- **C5.** Merging a metrics collection (with unique keys) with an empty
debt collection yields exactly the metrics records, each unchanged — the
output is a permutation of the input — and differing from the input only
in order, which is ascending by key. -/
theorem merge_empty_debt (ms : List Resource)
    (hm : (ms.map Resource.key).Nodup) :
    (get_resources_full_data ms []).Perm ms
    ∧ (get_resources_full_data ms []).Pairwise
        (fun a b => a.key < b.key) := by
  refine ⟨?_, full_data_key_lt_sorted ms []⟩
  unfold get_resources_full_data
  have hmd : mergeDebt (buildPrjs ms) [] = buildPrjs ms := rfl
  rw [hmd, buildPrjs_of_nodup ms hm]
  have hperm := (List.perm_insertionSort keyLe
    (ms.map (fun m => (m.key, m)))).map Prod.snd
  refine hperm.trans ?_
  rw [List.map_map]
  exact (List.map_id ms).symm ▸ (by simp)

/-- Witness for C5. -/
theorem merge_empty_debt_witness :
    (get_resources_full_data
        [Resource.mk "B" "bn" ["m1"], Resource.mk "A" "an" ["m2"]] []).Perm
      [Resource.mk "B" "bn" ["m1"], Resource.mk "A" "an" ["m2"]]
    ∧ (get_resources_full_data
        [Resource.mk "B" "bn" ["m1"], Resource.mk "A" "an" ["m2"]] []).Pairwise
      (fun a b => a.key < b.key) :=
  merge_empty_debt
    [Resource.mk "B" "bn" ["m1"], Resource.mk "A" "an" ["m2"]] (by decide)

/-! ## C6 / C7: activation body -/

/-- **C6.** With `reset` requested, any severity and any extra parameters
are ignored: the posted body is exactly
`{rule_key, profile_key, reset: "true"}` — no `severity` key, no `params`
key. -/
theorem activate_rule_reset_body (key profile_key : String)
    (severity : Option String) (params : List (String × String)) :
    activate_rule_body key profile_key true severity params
      = [("rule_key", key), ("profile_key", profile_key),
         ("reset", "true")] :=
  rfl

theorem intercalate_go_length (s : String) : ∀ (l : List String)
    (acc : String), acc.length ≤ (String.intercalate.go acc s l).length := by
  intro l
  induction l with
  | nil => intro acc; simp [String.intercalate.go]
  | cons a as ih =>
    intro acc
    rw [String.intercalate.go]
    calc acc.length ≤ (acc ++ s ++ a).length := by
          simp [String.length_append]
          omega
      _ ≤ _ := ih (acc ++ s ++ a)

theorem paramsSerialized_ne_empty {params : List (String × String)}
    (h : ∃ kv ∈ params, kv.2 ≠ "") : paramsSerialized params ≠ "" := by
  obtain ⟨kv, hkv, hne⟩ := h
  have hmem : kv ∈ (List.insertionSort pairLe params).filter
      (fun kv => kv.2 ≠ "") := by
    rw [List.mem_filter]
    exact ⟨(List.perm_insertionSort pairLe params).mem_iff.mpr hkv,
      by simpa using hne⟩
  obtain ⟨l1, l2, hsplit⟩ := List.append_of_mem hmem
  have hlen : 1 ≤ (paramsSerialized params).length := by
    unfold paramsSerialized
    rw [hsplit]
    rcases l1 with _ | ⟨p0, l1⟩
    · rw [List.nil_append, List.map_cons]
      rw [show String.intercalate ";"
          ((kv.1 ++ "=" ++ kv.2) :: List.map
            (fun kv => kv.1 ++ "=" ++ kv.2) l2)
        = String.intercalate.go (kv.1 ++ "=" ++ kv.2) ";"
            (List.map (fun kv => kv.1 ++ "=" ++ kv.2) l2) from rfl]
      calc 1 ≤ (kv.1 ++ "=" ++ kv.2).length := by
            rw [String.length_append, String.length_append]
            have he : ("=" : String).length = 1 := rfl
            omega
        _ ≤ _ := intercalate_go_length ";" _ _
    · rw [List.cons_append, List.map_cons]
      rw [show String.intercalate ";"
          ((p0.1 ++ "=" ++ p0.2) :: List.map
            (fun kv => kv.1 ++ "=" ++ kv.2) (l1 ++ kv :: l2))
        = String.intercalate.go (p0.1 ++ "=" ++ p0.2) ";"
            (List.map (fun kv => kv.1 ++ "=" ++ kv.2) (l1 ++ kv :: l2))
        from rfl]
      calc 1 ≤ (p0.1 ++ "=" ++ p0.2).length := by
            rw [String.length_append, String.length_append]
            have he : ("=" : String).length = 1 := rfl
            omega
        _ ≤ _ := intercalate_go_length ";" _ _
  intro hemp
  rw [hemp] at hlen
  simp at hlen

theorem paramsSerialized_empty {params : List (String × String)}
    (h : ∀ kv ∈ params, kv.2 = "") : paramsSerialized params = "" := by
  unfold paramsSerialized
  have hfil : (List.insertionSort pairLe params).filter
      (fun kv => kv.2 ≠ "") = [] := by
    rw [List.filter_eq_nil_iff]
    intro a ha
    simp [h a ((List.perm_insertionSort pairLe params).mem_iff.mp ha)]
  rw [hfil]
  rfl

theorem alistGet_append_right (l1 l2 : List (String × β)) (k : String)
    (h : k ∉ alistKeys l1) : alistGet (l1 ++ l2) k = alistGet l2 k := by
  induction l1 with
  | nil => simp
  | cons p l1 ih =>
    have hp : ¬ p.1 = k := by
      intro hc
      exact h (by simp [alistKeys, hc])
    rw [List.cons_append]
    simp only [alistGet, hp, if_false]
    exact ih (fun hc => h (by simp [alistKeys] at hc ⊢; right; exact hc))

/-- **C7.** With `reset = False`: if at least one parameter value is truthy,
the posted body's `params` entry is the truthy parameters only, sorted,
rendered `name=value` and joined by `;` (= `paramsSerialized`); if every
parameter value is falsy, the `params` key is omitted entirely. -/
theorem activate_rule_params_body (key profile_key : String)
    (severity : Option String) (params : List (String × String)) :
    ((∃ kv ∈ params, kv.2 ≠ "") →
      alistGet (activate_rule_body key profile_key false severity params)
          "params"
        = some (paramsSerialized params))
    ∧ ((∀ kv ∈ params, kv.2 = "") →
      "params" ∉ (activate_rule_body key profile_key false severity
          params).map Prod.fst) := by
  have hnp : "params" ∉ alistKeys
      ([("rule_key", key), ("profile_key", profile_key), ("reset", "false")]
        ++ severityEntry severity) := by
    rcases severity with _ | s
    · simp [severityEntry, alistKeys]
    · by_cases hs : s = "" <;> simp [severityEntry, alistKeys, hs]
  constructor
  · intro hex
    have hser := paramsSerialized_ne_empty hex
    have hpe : paramsEntry params = [("params", paramsSerialized params)] := by
      unfold paramsEntry
      rw [if_pos hser]
    unfold activate_rule_body
    simp only [Bool.false_eq_true, if_false, hpe]
    rw [alistGet_append_right _ _ _ hnp]
    simp [alistGet]
  · intro hall
    have hpe : paramsEntry params = [] := by
      unfold paramsEntry
      rw [if_neg (by simpa using paramsSerialized_empty hall)]
    unfold activate_rule_body
    simp only [Bool.false_eq_true, if_false, hpe, List.append_nil]
    intro hc
    exact hnp hc

/-- Witness for C7: one falsy parameter dropped, the rest sorted and
joined. -/
theorem activate_rule_params_body_witness :
    (∃ kv ∈ [("b", "2"), ("a", "1"), ("c", "")], kv.2 ≠ "")
    ∧ alistGet (activate_rule_body "py:S1291" "py-234454" false none
          [("b", "2"), ("a", "1"), ("c", "")]) "params"
      = some (paramsSerialized [("b", "2"), ("a", "1"), ("c", "")]) :=
  ⟨by decide,
    (activate_rule_params_body "py:S1291" "py-234454" none
      [("b", "2"), ("a", "1"), ("c", "")]).1 (by decide)⟩

/-! ## C8: migration error handling -/

/-- **C8.** For a rule the migration loop processes (it carries params):
a `ValidationError` whose message contains "already exists" increments the
skipped counter and processing continues with the remaining rules; any
other `ValidationError` increments the failed counter, reports the rule on
standard error, and continues; any other exception stops processing of all
remaining rules, leaving the counters as they are, with status
`Incomplete`. -/
theorem migrate_rule_step (r : MigRule) (rest : List MigRule)
    (c s f : Nat) (rep : List String) (hp : r.hasParams = true) :
    (∀ msg, r.outcome = .vErr msg →
      containsSub msg "already exists" = true →
      migrateLoop (r :: rest) c s f rep = migrateLoop rest c (s + 1) f rep)
    ∧ (∀ msg, r.outcome = .vErr msg →
      containsSub msg "already exists" = false →
      migrateLoop (r :: rest) c s f rep
        = migrateLoop rest c s (f + 1) (rep ++ [r.key]))
    ∧ (∀ msg, r.outcome = .fatal msg →
      migrateLoop (r :: rest) c s f rep = ⟨"Incomplete", c, s, f, rep⟩) := by
  refine ⟨?_, ?_, ?_⟩
  · intro msg ho hc
    simp [migrateLoop, hp, ho, hc]
  · intro msg ho hc
    simp [migrateLoop, hp, ho, hc]
  · intro msg ho
    simp [migrateLoop, hp, ho]

/-- Witness for C8: the spec's scenario message "rule already exists"
increments the skipped counter (and, applying the other conjuncts at other
rules, a different message increments failed, and a fatal outcome stops
with Incomplete). -/
theorem migrate_rule_step_witness :
    MigRule.hasParams ⟨"r2", true, .vErr "rule already exists"⟩ = true
    ∧ migrateLoop [⟨"r2", true, .vErr "rule already exists"⟩] 1 0 0 []
        = migrateLoop [] 1 1 0 [] :=
  ⟨rfl,
    (migrate_rule_step ⟨"r2", true, .vErr "rule already exists"⟩ [] 1 0 0 []
      rfl).1 "rule already exists" rfl (by decide)⟩

/-! ## C10: metrics tuple mutation -/

/-- **C10.** With `include_trends` and no caller-supplied metrics (omitted
or `None`), `get_resources_metrics` raises (`AttributeError`: the default
`GENERAL_METRICS` is a tuple, which has no `extend`) before any request is
issued; with a caller-supplied non-empty list the call proceeds and that
list ends up extended in place with a `new_`-prefixed entry per metric. -/
theorem resolveMetrics_trends (l : List String) (hl : l ≠ []) :
    resolveMetrics none true = .error .attributeError
    ∧ resolveMetrics (some ⟨false, l⟩) true
        = .ok (l ++ l.map (fun s => "new_" ++ s)) := by
  constructor
  · rfl
  · unfold resolveMetrics
    simp [hl]

/-- Witness for C10. -/
theorem resolveMetrics_trends_witness :
    resolveMetrics none true = .error .attributeError
    ∧ resolveMetrics (some ⟨false, ["coverage"]⟩) true
        = .ok (["coverage"] ++ ["coverage"].map (fun s => "new_" ++ s)) :=
  resolveMetrics_trends ["coverage"] (by decide)

end SonarApi
